import Mathlib

/-!
Verification of the distributed fixed-capacity hash table in src/hash_map.hpp.

The table is a UPC++-style structure: each of the P participants (ranks) owns a
segment of slots_per_rank record slots plus slots_per_rank occupancy counters;
any participant addresses any slot through locate_slot.  insert claims a slot
with an atomic fetch-add over the counter and writes the record with a remote
put; find retraces the probe sequence with remote gets.

The embedding below is a sequential shallow embedding of that code:
- a table state holds the size fields plus the two arenas (data and used),
  modelled as functions from (rank, offset) to contents;
- uninitialized record memory is modelled as Option.none; the key comparison
  in find treats such memory as never equal to a searched key, which models
  the contract (spec section 4.5) that a reader does not observe a
  claimed-but-unwritten or garbage record as a hit;
- uint64_t arithmetic on hash + probe is modelled with an explicit mod 2^64;
- every remote operation (fetch-add, rput, rget, atomic load) is recorded in a
  trace as a RemoteOp carrying the addressed (rank, offset) and whether the
  issuing code waits on the returned completion future.  In the source,
  request_slot futures are waited on at the call site (hash_map.hpp line 74),
  rget futures inside read_slot (line 113), while write_slot discards its rput
  future with a cast to void (line 108), so that operation is never waited on;
- the modulo-by-zero undefined behaviour of find on a size-0 table
  (hash_map.hpp line 87, reached before the do-while condition) is modelled by
  find returning Option.none.
-/

/-- Modelled from the spec: kmer_t.hpp is not under src/.  A record (kmer_pair)
is an immutable key (the pkmer_t kmer, a fixed-width binary value, modelled as
a natural number) plus an associated payload.  The deterministic 64-bit hash
function of the key is passed around as a parameter H; hash values are reduced
mod 2^64 where the source stores them in a uint64_t. -/
structure kmer_pair where
  kmer : Nat
  payload : Nat
deriving DecidableEq

/-- 2^64, the modulus of uint64_t arithmetic. -/
def u64 : Nat := 18446744073709551616

/-- The kind of a one-sided remote operation. -/
inductive OpKind where
  | fetchAdd
  | rput
  | rget
  | atomicLoad
deriving DecidableEq

/-- One remote operation as issued by the table code: its kind, the rank and
offset it addresses, and whether the issuing code waits on the completion
future it yields. -/
structure RemoteOp where
  kind : OpKind
  rank : Nat
  offset : Nat
  waited : Bool
deriving DecidableEq

/-- HashMap::SlotLoc (hash_map.hpp lines 12-15): owning rank and local offset
of a logical slot. -/
structure SlotLoc where
  rank : Nat
  offset : Nat
deriving DecidableEq

/-- The state of the HashMap object together with the two distributed arenas it
addresses: my_size and slots_per_rank are the size fields of the struct; data
and used are the record arena and the occupancy-counter arena, indexed by
(rank, offset).  Uninitialized record memory is none; counters start at 0. -/
structure HashMap where
  my_size : Nat
  slots_per_rank : Nat
  data : Nat → Nat → Option kmer_pair
  used : Nat → Nat → Nat

/-- Pointwise update of a two-index arena at one (rank, offset). -/
def upd2 (f : Nat → Nat → α) (r o : Nat) (v : α) : Nat → Nat → α :=
  fun r1 o1 => if r1 = r then (if o1 = o then v else f r1 o1) else f r1 o1

/-- HashMap::size (hash_map.hpp line 122). -/
def HashMap.size (st : HashMap) : Nat := st.my_size

/-- HashMap::HashMap (hash_map.hpp lines 40-68): my_size = size,
slots_per_rank = size / ranks + 1; both arenas are freshly allocated, counters
zero-initialized and record memory unwritten.  The two upcxx::barrier calls
and the address-handle exchange precede any table traffic and have no effect
on the sequential state. -/
def HashMap.init (size ranks : Nat) : HashMap :=
  { my_size := size
    slots_per_rank := size / ranks + 1
    data := fun _ _ => none
    used := fun _ _ => 0 }

/-- HashMap::locate_slot (hash_map.hpp lines 96-98):
slot / slots_per_rank is the owning rank, slot % slots_per_rank the offset. -/
def locate_slot (st : HashMap) (slot : Nat) : SlotLoc :=
  ⟨slot / st.slots_per_rank, slot % st.slots_per_rank⟩

/-- HashMap::request_slot (hash_map.hpp lines 116-120): atomic fetch-add of 1
on the occupancy counter of the slot.  Returns the previous counter value, the
new state, and the remote operation issued; the returned future is waited on
by its caller insert (line 74), so the op is recorded as waited. -/
def request_slot (st : HashMap) (slot : Nat) : Nat × HashMap × RemoteOp :=
  let loc := locate_slot st slot
  (st.used loc.rank loc.offset,
   { st with used := upd2 st.used loc.rank loc.offset (st.used loc.rank loc.offset + 1) },
   ⟨OpKind.fetchAdd, loc.rank, loc.offset, true⟩)

/-- HashMap::write_slot (hash_map.hpp lines 106-109): one-sided rput of the
record into the slot.  The source casts the returned future to void, so the
operation is never waited on: its RemoteOp has waited = false. -/
def write_slot (st : HashMap) (slot : Nat) (kmer : kmer_pair) : HashMap × RemoteOp :=
  let loc := locate_slot st slot
  ({ st with data := upd2 st.data loc.rank loc.offset (some kmer) },
   ⟨OpKind.rput, loc.rank, loc.offset, false⟩)

/-- HashMap::read_slot (hash_map.hpp lines 111-114): one-sided rget of the
slot record, waited on inside read_slot. -/
def read_slot (st : HashMap) (slot : Nat) : Option kmer_pair × RemoteOp :=
  let loc := locate_slot st slot
  (st.data loc.rank loc.offset, ⟨OpKind.rget, loc.rank, loc.offset, true⟩)

/-- HashMap::slot_used (hash_map.hpp lines 100-104): atomic load of the
occupancy counter, compared against 0; the future is waited on. -/
def slot_used (st : HashMap) (slot : Nat) : Bool × RemoteOp :=
  let loc := locate_slot st slot
  (st.used loc.rank loc.offset != 0, ⟨OpKind.atomicLoad, loc.rank, loc.offset, true⟩)

/-- The logical slot probed at probe index p for a 64-bit hash value:
(hash + probe) % size() in the source, where hash + probe is uint64_t
arithmetic, hence the explicit mod 2^64. -/
def slotOf (hash probe cap : Nat) : Nat := (hash + probe) % u64 % cap

/-- The probe loop of HashMap::insert (hash_map.hpp lines 72-78), with the
remaining probe budget as structural fuel: request the slot; on previous value
0 write the record and return success, otherwise move to the next probe.
Returns the final state, the Bool result and the trace of remote ops. -/
def insertAux (st : HashMap) (k : kmer_pair) (hash probe fuel : Nat) :
    HashMap × Bool × List RemoteOp :=
  match fuel with
  | 0 => (st, false, [])
  | fuel + 1 =>
    let slot := slotOf hash probe st.my_size
    let res := request_slot st slot
    if res.1 = 0 then
      let w := write_slot res.2.1 slot k
      (w.1, true, [res.2.2, w.2])
    else
      let r := insertAux res.2.1 k hash (probe + 1) fuel
      (r.1, r.2.1, res.2.2 :: r.2.2)

/-- HashMap::insert (hash_map.hpp lines 70-80): hash the record key once, then
probe slots (hash + probe) % size() for probe = 0 .. size()-1.  With size() =
0 the for-loop body never runs and insert returns false. -/
def insert (H : Nat → Nat) (st : HashMap) (k : kmer_pair) :
    HashMap × Bool × List RemoteOp :=
  insertAux st k (H k.kmer % u64) 0 st.my_size

/-- The key comparison val_kmer.kmer == key_kmer of find (hash_map.hpp line
89), on the modelled record memory: an unwritten (none) slot never compares
equal to a searched key. -/
def kmerMatches (v : Option kmer_pair) (key : Nat) : Bool :=
  match v with
  | some r => r.kmer == key
  | none => false

/-- The do-while loop of HashMap::find (hash_map.hpp lines 86-92), with the
remaining probe budget as structural fuel: read the probed slot, return the
read record on a key match, otherwise continue while probes remain.  Returns
the result (the matched record, or none) and the trace of remote ops. -/
def findAux (st : HashMap) (key hash probe fuel : Nat) :
    Option kmer_pair × List RemoteOp :=
  match fuel with
  | 0 => (none, [])
  | fuel + 1 =>
    let slot := slotOf hash probe st.my_size
    let r := read_slot st slot
    if kmerMatches r.1 key then (r.1, [r.2])
    else
      let rest := findAux st key hash (probe + 1) fuel
      (rest.1, r.2 :: rest.2)

/-- HashMap::find (hash_map.hpp lines 82-94): hash the key once, then probe
the same sequence as insert with a do-while loop.  Because the loop is
do-while, a table of size 0 computes (hash + 0) % 0 before the loop condition
is checked: modulo by zero, undefined behaviour, modelled as the outer none.
Otherwise the result is some (matched record or none, op trace). -/
def find (H : Nat → Nat) (st : HashMap) (key : Nat) :
    Option (Option kmer_pair × List RemoteOp) :=
  if st.my_size = 0 then none
  else some (findAux st key (H key % u64) 0 st.my_size)

/-- The bulk-insert phase: insert the records in order, collecting the
per-record success flags. -/
def insertAll (H : Nat → Nat) (st : HashMap) : List kmer_pair → HashMap × List Bool
  | [] => (st, [])
  | k :: ks =>
    let r := insert H st k
    let rest := insertAll H r.1 ks
    (rest.1, r.2.1 :: rest.2)

/-- n consecutive request_slot calls on one slot, collecting the previous
counter values each fetch-add returns.  Counters are modified only by
request_slot fetch-adds, so this models all requestSlot calls ever made on
that slot. -/
def requestSeq (st : HashMap) (slot : Nat) : Nat → List Nat × HashMap
  | 0 => ([], st)
  | n + 1 =>
    let r := request_slot st slot
    let rest := requestSeq r.2.1 slot n
    (r.1 :: rest.1, rest.2)

/-- One table operation: an insert of a record, a find of a key, or a bare
request_slot. -/
inductive TableOp where
  | ins (k : kmer_pair)
  | fnd (key : Nat)
  | req (slot : Nat)

/-- Apply one table operation to the state.  find issues only rget operations
and leaves the table state unchanged. -/
def applyOp (H : Nat → Nat) (st : HashMap) : TableOp → HashMap
  | TableOp.ins k => (insert H st k).1
  | TableOp.fnd _ => st
  | TableOp.req s => (request_slot st s).2.1

/-- Apply a list of table operations in order. -/
def applyOps (H : Nat → Nat) (st : HashMap) : List TableOp → HashMap
  | [] => st
  | op :: ops => applyOps H (applyOp H st op) ops

/-- The occupancy counter of a logical slot, read through locate_slot. -/
def usedAt (st : HashMap) (s : Nat) : Nat :=
  st.used (locate_slot st s).rank (locate_slot st s).offset

/-- The record memory of a logical slot, read through locate_slot. -/
def dataAt (st : HashMap) (s : Nat) : Option kmer_pair :=
  st.data (locate_slot st s).rank (locate_slot st s).offset

/-- The set of logical slots whose occupancy counter is non-zero. -/
def claimedSet (st : HashMap) : Finset Nat :=
  (Finset.range st.my_size).filter (fun s => usedAt st s ≠ 0)

/-- The set of logical slots visited by a full probe sequence for a hash. -/
def probedSet (hash cap : Nat) : Finset Nat :=
  (Finset.range cap).image (fun p => slotOf hash p cap)

/-- The (rank, offset) pairs of the fetch-add operations of a trace, in
order: the locations whose slots insert requested. -/
def fetchAddLocs (ops : List RemoteOp) : List (Nat × Nat) :=
  (ops.filter (fun op => op.kind == OpKind.fetchAdd)).map (fun op => (op.rank, op.offset))

/-- The fetch-add operation request_slot issues for a slot. -/
def faOpAt (st : HashMap) (s : Nat) : RemoteOp :=
  ⟨OpKind.fetchAdd, (locate_slot st s).rank, (locate_slot st s).offset, true⟩

/-- The rput operation write_slot issues for a slot (future discarded). -/
def wrOpAt (st : HashMap) (s : Nat) : RemoteOp :=
  ⟨OpKind.rput, (locate_slot st s).rank, (locate_slot st s).offset, false⟩

/-- The rget operation read_slot issues for a slot. -/
def rgOpAt (st : HashMap) (s : Nat) : RemoteOp :=
  ⟨OpKind.rget, (locate_slot st s).rank, (locate_slot st s).offset, true⟩

/-- The write-after-claim invariant: a slot whose record memory has been
written has a non-zero occupancy counter.  It holds of the freshly constructed
table and is preserved by every operation. -/
def tableInv (st : HashMap) : Prop :=
  ∀ s : Nat, dataAt st s = none ∨ usedAt st s ≠ 0

/-- The identity hash function, used as input for concrete checks. -/
def idH : Nat → Nat := fun n => n

/-- A constant-zero hash function, used as input for concrete checks. -/
def zeroH : Nat → Nat := fun _ => 0

/-- A constant-one hash function, used as input for concrete checks. -/
def oneH : Nat → Nat := fun _ => 1

/-- The largest uint64_t value, 2^64 - 1: a legal 64-bit hash value whose
probe arithmetic hash + probe wraps around. -/
def topHash : Nat := 18446744073709551615

/-- A hash function constantly equal to topHash. -/
def topH : Nat → Nat := fun _ => topHash

/-- A capacity-3 single-rank table with slot 0 claimed: the state after
inserting key 1 under topH (topHash mod 3 = 0). -/
def c2State : HashMap := (insert topH (HashMap.init 3 1) ⟨1, 0⟩).1

/-- The probe slots the spec formula predicts for hash topHash on a
capacity-3 table: (hash + probe) mod capacity for probe = 0, 1, 2.  Stated
from the spec sentence, for comparison with the slots the code requests. -/
def c2SpecSlots : List Nat := (List.range 3).map (fun p => (topHash + p) % 3)

/-- The (rank, offset) locations of the spec-predicted probe slots. -/
def c2SpecLocs : List (Nat × Nat) :=
  c2SpecSlots.map (fun s => ((locate_slot c2State s).rank, (locate_slot c2State s).offset))

/-- A full capacity-1 single-rank table: the state after inserting key 1
under zeroH. -/
def c3State : HashMap := (insert zeroH (HashMap.init 1 1) ⟨1, 0⟩).1

/-! ## Basic lemmas about the state operations -/

theorem upd2_self (f : Nat → Nat → α) (r o : Nat) (v : α) : upd2 f r o v r o = v := by
  simp [upd2]

theorem upd2_ne (f : Nat → Nat → α) (r o : Nat) (v : α) (r1 o1 : Nat)
    (h : ¬(r1 = r ∧ o1 = o)) : upd2 f r o v r1 o1 = f r1 o1 := by
  unfold upd2
  by_cases hr : r1 = r
  · by_cases ho : o1 = o
    · exact absurd ⟨hr, ho⟩ h
    · simp [hr, ho]
  · simp [hr]

theorem locate_slot_inj (st : HashMap) (a b : Nat)
    (h : locate_slot st a = locate_slot st b) : a = b := by
  have h1 : a / st.slots_per_rank = b / st.slots_per_rank := congrArg SlotLoc.rank h
  have h2 : a % st.slots_per_rank = b % st.slots_per_rank := congrArg SlotLoc.offset h
  have h3 : st.slots_per_rank * (a / st.slots_per_rank) =
      st.slots_per_rank * (b / st.slots_per_rank) := by rw [h1]
  have ha := Nat.div_add_mod a st.slots_per_rank
  have hb := Nat.div_add_mod b st.slots_per_rank
  omega

theorem locate_slot_congr (st1 st2 : HashMap) (s : Nat)
    (h : st1.slots_per_rank = st2.slots_per_rank) :
    locate_slot st1 s = locate_slot st2 s := by
  simp [locate_slot, h]

theorem request_slot_prev (st : HashMap) (s : Nat) :
    (request_slot st s).1 = usedAt st s := rfl

theorem request_slot_my_size (st : HashMap) (s : Nat) :
    (request_slot st s).2.1.my_size = st.my_size := rfl

theorem request_slot_spr (st : HashMap) (s : Nat) :
    (request_slot st s).2.1.slots_per_rank = st.slots_per_rank := rfl

theorem request_slot_data (st : HashMap) (s : Nat) :
    (request_slot st s).2.1.data = st.data := rfl

theorem request_slot_op (st : HashMap) (s : Nat) :
    (request_slot st s).2.2 =
      ⟨OpKind.fetchAdd, (locate_slot st s).rank, (locate_slot st s).offset, true⟩ := rfl

theorem write_slot_my_size (st : HashMap) (s : Nat) (k : kmer_pair) :
    (write_slot st s k).1.my_size = st.my_size := rfl

theorem write_slot_spr (st : HashMap) (s : Nat) (k : kmer_pair) :
    (write_slot st s k).1.slots_per_rank = st.slots_per_rank := rfl

theorem write_slot_used (st : HashMap) (s : Nat) (k : kmer_pair) :
    (write_slot st s k).1.used = st.used := rfl

theorem write_slot_op (st : HashMap) (s : Nat) (k : kmer_pair) :
    (write_slot st s k).2 =
      ⟨OpKind.rput, (locate_slot st s).rank, (locate_slot st s).offset, false⟩ := rfl

theorem read_slot_val (st : HashMap) (s : Nat) : (read_slot st s).1 = dataAt st s := rfl

theorem read_slot_op (st : HashMap) (s : Nat) :
    (read_slot st s).2 =
      ⟨OpKind.rget, (locate_slot st s).rank, (locate_slot st s).offset, true⟩ := rfl

theorem usedAt_request (st : HashMap) (t s : Nat) :
    usedAt (request_slot st t).2.1 s =
      if s = t then usedAt st s + 1 else usedAt st s := by
  have hspr : (request_slot st t).2.1.slots_per_rank = st.slots_per_rank := rfl
  unfold usedAt
  rw [locate_slot_congr (request_slot st t).2.1 st s hspr]
  by_cases hst : s = t
  · subst hst
    simp [request_slot, upd2_self, usedAt]
  · have hne : locate_slot st s ≠ locate_slot st t := by
      intro h
      exact hst (locate_slot_inj st s t h)
    show upd2 st.used (locate_slot st t).rank (locate_slot st t).offset _
        (locate_slot st s).rank (locate_slot st s).offset = _
    rw [upd2_ne]
    · simp [hst]
    · intro ⟨h1, h2⟩
      apply hne
      cases hl1 : locate_slot st s
      cases hl2 : locate_slot st t
      simp_all

theorem dataAt_request (st : HashMap) (t s : Nat) :
    dataAt (request_slot st t).2.1 s = dataAt st s := by
  unfold dataAt
  rw [locate_slot_congr (request_slot st t).2.1 st s rfl]
  rfl

theorem usedAt_write (st : HashMap) (t s : Nat) (k : kmer_pair) :
    usedAt (write_slot st t k).1 s = usedAt st s := by
  unfold usedAt
  rw [locate_slot_congr (write_slot st t k).1 st s rfl]
  rfl

theorem dataAt_write (st : HashMap) (t s : Nat) (k : kmer_pair) :
    dataAt (write_slot st t k).1 s =
      if s = t then some k else dataAt st s := by
  unfold dataAt
  rw [locate_slot_congr (write_slot st t k).1 st s rfl]
  by_cases hst : s = t
  · subst hst
    show upd2 st.data (locate_slot st s).rank (locate_slot st s).offset (some k)
        (locate_slot st s).rank (locate_slot st s).offset = _
    rw [upd2_self]
    simp
  · have hne : locate_slot st s ≠ locate_slot st t := by
      intro h
      exact hst (locate_slot_inj st s t h)
    show upd2 st.data (locate_slot st t).rank (locate_slot st t).offset (some k)
        (locate_slot st s).rank (locate_slot st s).offset = _
    rw [upd2_ne]
    · simp [hst]
    · intro ⟨h1, h2⟩
      apply hne
      cases hl1 : locate_slot st s
      cases hl2 : locate_slot st t
      simp_all

theorem insertAux_zero (st : HashMap) (k : kmer_pair) (hash probe : Nat) :
    insertAux st k hash probe 0 = (st, false, []) := rfl

theorem insertAux_succ (st : HashMap) (k : kmer_pair) (hash probe fuel : Nat) :
    insertAux st k hash probe (fuel + 1) =
      if (request_slot st (slotOf hash probe st.my_size)).1 = 0 then
        ((write_slot (request_slot st (slotOf hash probe st.my_size)).2.1
            (slotOf hash probe st.my_size) k).1, true,
         [(request_slot st (slotOf hash probe st.my_size)).2.2,
          (write_slot (request_slot st (slotOf hash probe st.my_size)).2.1
            (slotOf hash probe st.my_size) k).2])
      else
        ((insertAux (request_slot st (slotOf hash probe st.my_size)).2.1 k hash
            (probe + 1) fuel).1,
         (insertAux (request_slot st (slotOf hash probe st.my_size)).2.1 k hash
            (probe + 1) fuel).2.1,
         (request_slot st (slotOf hash probe st.my_size)).2.2 ::
           (insertAux (request_slot st (slotOf hash probe st.my_size)).2.1 k hash
             (probe + 1) fuel).2.2) := rfl

theorem findAux_zero (st : HashMap) (key hash probe : Nat) :
    findAux st key hash probe 0 = (none, []) := rfl

theorem findAux_succ (st : HashMap) (key hash probe fuel : Nat) :
    findAux st key hash probe (fuel + 1) =
      if kmerMatches (read_slot st (slotOf hash probe st.my_size)).1 key then
        ((read_slot st (slotOf hash probe st.my_size)).1,
         [(read_slot st (slotOf hash probe st.my_size)).2])
      else
        ((findAux st key hash (probe + 1) fuel).1,
         (read_slot st (slotOf hash probe st.my_size)).2 ::
           (findAux st key hash (probe + 1) fuel).2) := rfl

theorem insertAux_my_size (st : HashMap) (k : kmer_pair) (hash probe fuel : Nat) :
    (insertAux st k hash probe fuel).1.my_size = st.my_size := by
  induction fuel generalizing st probe with
  | zero => rfl
  | succ fuel ih =>
    rw [insertAux_succ]
    by_cases h : (request_slot st (slotOf hash probe st.my_size)).1 = 0
    · simp only [h, if_pos]
      rfl
    · simp only [h, if_neg, not_false_iff]
      exact ih (request_slot st (slotOf hash probe st.my_size)).2.1 (probe + 1)

theorem insertAux_spr (st : HashMap) (k : kmer_pair) (hash probe fuel : Nat) :
    (insertAux st k hash probe fuel).1.slots_per_rank = st.slots_per_rank := by
  induction fuel generalizing st probe with
  | zero => rfl
  | succ fuel ih =>
    rw [insertAux_succ]
    by_cases h : (request_slot st (slotOf hash probe st.my_size)).1 = 0
    · simp only [h, if_pos]
      rfl
    · simp only [h, if_neg, not_false_iff]
      exact ih (request_slot st (slotOf hash probe st.my_size)).2.1 (probe + 1)

theorem request_slot_op_fa (st : HashMap) (s : Nat) :
    (request_slot st s).2.2 = faOpAt st s := rfl

theorem write_slot_op_wr (st : HashMap) (s : Nat) (k : kmer_pair) :
    (write_slot st s k).2 = wrOpAt st s := rfl

theorem read_slot_op_rg (st : HashMap) (s : Nat) :
    (read_slot st s).2 = rgOpAt st s := rfl

theorem used_request_raw (st : HashMap) (t r o : Nat) :
    (request_slot st t).2.1.used r o =
      if r = (locate_slot st t).rank ∧ o = (locate_slot st t).offset
      then st.used r o + 1 else st.used r o := by
  show upd2 st.used (locate_slot st t).rank (locate_slot st t).offset
      (st.used (locate_slot st t).rank (locate_slot st t).offset + 1) r o = _
  by_cases h : r = (locate_slot st t).rank ∧ o = (locate_slot st t).offset
  · obtain ⟨h1, h2⟩ := h
    subst h1
    subst h2
    rw [upd2_self]
    simp
  · rw [upd2_ne st.used _ _ _ r o h, if_neg h]

theorem insertAux_false_claimed (st : HashMap) (k : kmer_pair) (hash probe fuel : Nat)
    (hf : (insertAux st k hash probe fuel).2.1 = false) :
    ∀ i < fuel, usedAt st (slotOf hash (probe + i) st.my_size) ≠ 0 := by
  induction fuel generalizing st probe with
  | zero => intro i hi; exact absurd hi (Nat.not_lt_zero i)
  | succ fuel ih =>
    intro i hi
    rw [insertAux_succ] at hf
    by_cases h0 : (request_slot st (slotOf hash probe st.my_size)).1 = 0
    · rw [if_pos h0] at hf
      exact absurd hf (by simp)
    · rw [if_neg h0] at hf
      rw [request_slot_prev] at h0
      cases i with
      | zero => simpa using h0
      | succ j =>
        have hj : j < fuel := by omega
        have h2 := ih (request_slot st (slotOf hash probe st.my_size)).2.1 (probe + 1) hf j hj
        have hms : (request_slot st (slotOf hash probe st.my_size)).2.1.my_size =
            st.my_size := rfl
        rw [hms, usedAt_request] at h2
        have harr : probe + (j + 1) = probe + 1 + j := by omega
        rw [harr]
        by_cases hs : slotOf hash (probe + 1 + j) st.my_size =
            slotOf hash probe st.my_size
        · rw [hs]
          exact h0
        · rw [if_neg hs] at h2
          exact h2

theorem insertAux_false_state (st : HashMap) (k : kmer_pair) (hash probe fuel : Nat)
    (hf : (insertAux st k hash probe fuel).2.1 = false) :
    (insertAux st k hash probe fuel).1.data = st.data ∧
      ∀ r o, ((insertAux st k hash probe fuel).1.used r o = 0 ↔ st.used r o = 0) := by
  induction fuel generalizing st probe with
  | zero => exact ⟨rfl, fun r o => Iff.rfl⟩
  | succ fuel ih =>
    rw [insertAux_succ] at hf ⊢
    by_cases h0 : (request_slot st (slotOf hash probe st.my_size)).1 = 0
    · rw [if_pos h0] at hf
      exact absurd hf (by simp)
    · rw [if_neg h0] at hf ⊢
      have hrec := ih (request_slot st (slotOf hash probe st.my_size)).2.1 (probe + 1) hf
      refine ⟨hrec.1, fun r o => ?_⟩
      have h2 := hrec.2 r o
      rw [used_request_raw] at h2
      by_cases hloc : r = (locate_slot st (slotOf hash probe st.my_size)).rank ∧
          o = (locate_slot st (slotOf hash probe st.my_size)).offset
      · rw [if_pos hloc] at h2
        rw [request_slot_prev] at h0
        have hne : st.used r o ≠ 0 := by
          obtain ⟨e1, e2⟩ := hloc
          rw [e1, e2]
          exact h0
        constructor
        · intro h
          exact absurd h (by rw [h2]; omega)
        · intro h
          exact absurd h hne
      · rw [if_neg hloc] at h2
        exact h2

theorem insertAux_false_trace (st : HashMap) (k : kmer_pair) (hash probe fuel : Nat)
    (hf : (insertAux st k hash probe fuel).2.1 = false) :
    (insertAux st k hash probe fuel).2.2 =
      (List.range' probe fuel).map (fun p => faOpAt st (slotOf hash p st.my_size)) := by
  induction fuel generalizing st probe with
  | zero => rfl
  | succ fuel ih =>
    rw [insertAux_succ] at hf ⊢
    by_cases h0 : (request_slot st (slotOf hash probe st.my_size)).1 = 0
    · rw [if_pos h0] at hf
      exact absurd hf (by simp)
    · rw [if_neg h0] at hf ⊢
      have hrec := ih (request_slot st (slotOf hash probe st.my_size)).2.1 (probe + 1) hf
      rw [List.range'_succ, List.map_cons]
      show (request_slot st (slotOf hash probe st.my_size)).2.2 :: _ = _
      rw [request_slot_op_fa]
      exact congrArg (faOpAt st (slotOf hash probe st.my_size) :: ·) hrec

theorem insertAux_true_char (st : HashMap) (k : kmer_pair) (hash probe fuel : Nat)
    (ht : (insertAux st k hash probe fuel).2.1 = true) :
    ∃ m < fuel, usedAt st (slotOf hash (probe + m) st.my_size) = 0 ∧
      (∀ j < m, usedAt st (slotOf hash (probe + j) st.my_size) ≠ 0) ∧
      dataAt (insertAux st k hash probe fuel).1 (slotOf hash (probe + m) st.my_size) =
        some k ∧
      (insertAux st k hash probe fuel).2.2 =
        (List.range' probe (m + 1)).map (fun p => faOpAt st (slotOf hash p st.my_size)) ++
          [wrOpAt st (slotOf hash (probe + m) st.my_size)] := by
  induction fuel generalizing st probe with
  | zero => exact absurd ht (by simp [insertAux_zero])
  | succ fuel ih =>
    rw [insertAux_succ] at ht ⊢
    by_cases h0 : (request_slot st (slotOf hash probe st.my_size)).1 = 0
    · rw [if_pos h0] at ht ⊢
      refine ⟨0, Nat.succ_pos fuel, ?_, ?_, ?_, ?_⟩
      · rw [request_slot_prev] at h0
        simpa using h0
      · intro j hj
        exact absurd hj (Nat.not_lt_zero j)
      · rw [Nat.add_zero]
        show dataAt (write_slot (request_slot st (slotOf hash probe st.my_size)).2.1
            (slotOf hash probe st.my_size) k).1 (slotOf hash probe st.my_size) = some k
        rw [dataAt_write]
        simp
      · rw [Nat.add_zero]
        show [(request_slot st (slotOf hash probe st.my_size)).2.2,
              (write_slot (request_slot st (slotOf hash probe st.my_size)).2.1
                (slotOf hash probe st.my_size) k).2] = _
        rw [request_slot_op_fa, write_slot_op_wr]
        have hw : wrOpAt (request_slot st (slotOf hash probe st.my_size)).2.1
            (slotOf hash probe st.my_size) = wrOpAt st (slotOf hash probe st.my_size) := rfl
        rw [hw]
        simp [List.range'_succ]
    · rw [if_neg h0] at ht ⊢
      rw [request_slot_prev] at h0
      obtain ⟨m, hm, hfree, hblocked, hdata, htrace⟩ :=
        ih (request_slot st (slotOf hash probe st.my_size)).2.1 (probe + 1) ht
      have hms : (request_slot st (slotOf hash probe st.my_size)).2.1.my_size =
          st.my_size := rfl
      rw [hms] at hfree hblocked hdata htrace
      refine ⟨m + 1, by omega, ?_, ?_, ?_, ?_⟩
      · have harr : probe + (m + 1) = probe + 1 + m := by omega
        rw [harr]
        rw [usedAt_request] at hfree
        by_cases hs : slotOf hash (probe + 1 + m) st.my_size =
            slotOf hash probe st.my_size
        · rw [if_pos hs] at hfree
          exact absurd hfree (by omega)
        · rw [if_neg hs] at hfree
          exact hfree
      · intro j hj
        cases j with
        | zero => simpa using h0
        | succ j1 =>
          have hj1 : j1 < m := by omega
          have h2 := hblocked j1 hj1
          rw [usedAt_request] at h2
          have harr : probe + (j1 + 1) = probe + 1 + j1 := by omega
          rw [harr]
          by_cases hs : slotOf hash (probe + 1 + j1) st.my_size =
              slotOf hash probe st.my_size
          · rw [hs]
            exact h0
          · rw [if_neg hs] at h2
            exact h2
      · have harr : probe + (m + 1) = probe + 1 + m := by omega
        rw [harr]
        exact hdata
      · show (request_slot st (slotOf hash probe st.my_size)).2.2 :: _ = _
        rw [request_slot_op_fa, htrace]
        have hfa : (fun p => faOpAt (request_slot st (slotOf hash probe st.my_size)).2.1
            (slotOf hash p st.my_size)) =
            (fun p => faOpAt st (slotOf hash p st.my_size)) := rfl
        rw [hfa]
        have harr : probe + (m + 1) = probe + 1 + m := by omega
        have hwr : wrOpAt (request_slot st (slotOf hash probe st.my_size)).2.1
            (slotOf hash (probe + 1 + m) st.my_size) =
            wrOpAt st (slotOf hash (probe + 1 + m) st.my_size) := rfl
        rw [hwr, harr]
        simp [List.range'_succ]

theorem insertAux_used_mono (st : HashMap) (k : kmer_pair) (hash probe fuel r o : Nat) :
    st.used r o ≤ (insertAux st k hash probe fuel).1.used r o := by
  induction fuel generalizing st probe with
  | zero => exact Nat.le_refl _
  | succ fuel ih =>
    rw [insertAux_succ]
    by_cases h0 : (request_slot st (slotOf hash probe st.my_size)).1 = 0
    · rw [if_pos h0]
      show st.used r o ≤ (request_slot st (slotOf hash probe st.my_size)).2.1.used r o
      rw [used_request_raw]
      by_cases hloc : r = (locate_slot st (slotOf hash probe st.my_size)).rank ∧
          o = (locate_slot st (slotOf hash probe st.my_size)).offset
      · rw [if_pos hloc]; omega
      · rw [if_neg hloc]
    · rw [if_neg h0]
      have h1 : st.used r o ≤
          (request_slot st (slotOf hash probe st.my_size)).2.1.used r o := by
        rw [used_request_raw]
        by_cases hloc : r = (locate_slot st (slotOf hash probe st.my_size)).rank ∧
            o = (locate_slot st (slotOf hash probe st.my_size)).offset
        · rw [if_pos hloc]; omega
        · rw [if_neg hloc]
      exact Nat.le_trans h1
        (ih (request_slot st (slotOf hash probe st.my_size)).2.1 (probe + 1))

theorem insertAux_data_change (st : HashMap) (k : kmer_pair) (hash probe fuel r o : Nat)
    (hne : (insertAux st k hash probe fuel).1.data r o ≠ st.data r o) :
    st.used r o = 0 ∧ (insertAux st k hash probe fuel).1.used r o ≠ 0 := by
  induction fuel generalizing st probe with
  | zero => exact absurd rfl hne
  | succ fuel ih =>
    rw [insertAux_succ] at hne ⊢
    by_cases h0 : (request_slot st (slotOf hash probe st.my_size)).1 = 0
    · rw [if_pos h0] at hne ⊢
      have hdata : (write_slot (request_slot st (slotOf hash probe st.my_size)).2.1
          (slotOf hash probe st.my_size) k).1.data r o =
          upd2 st.data (locate_slot st (slotOf hash probe st.my_size)).rank
            (locate_slot st (slotOf hash probe st.my_size)).offset (some k) r o := rfl
      rw [hdata] at hne
      by_cases hloc : r = (locate_slot st (slotOf hash probe st.my_size)).rank ∧
          o = (locate_slot st (slotOf hash probe st.my_size)).offset
      · obtain ⟨e1, e2⟩ := hloc
        subst e1
        subst e2
        rw [request_slot_prev] at h0
        refine ⟨h0, ?_⟩
        show (request_slot st (slotOf hash probe st.my_size)).2.1.used _ _ ≠ 0
        rw [used_request_raw, if_pos ⟨rfl, rfl⟩]
        omega
      · rw [upd2_ne st.data _ _ _ r o hloc] at hne
        exact absurd rfl hne
    · rw [if_neg h0] at hne ⊢
      have hdata : (request_slot st (slotOf hash probe st.my_size)).2.1.data = st.data := rfl
      have h2 := ih (request_slot st (slotOf hash probe st.my_size)).2.1 (probe + 1)
        (by rw [hdata]; exact hne)
      refine ⟨?_, h2.2⟩
      have h3 := h2.1
      rw [used_request_raw] at h3
      by_cases hloc : r = (locate_slot st (slotOf hash probe st.my_size)).rank ∧
          o = (locate_slot st (slotOf hash probe st.my_size)).offset
      · rw [if_pos hloc] at h3
        omega
      · rw [if_neg hloc] at h3
        exact h3

theorem tableInv_init (size ranks : Nat) : tableInv (HashMap.init size ranks) :=
  fun _ => Or.inl rfl

theorem tableInv_request (st : HashMap) (t : Nat) (hinv : tableInv st) :
    tableInv (request_slot st t).2.1 := by
  intro s
  rcases hinv s with h | h
  · left
    rw [dataAt_request]
    exact h
  · right
    rw [usedAt_request]
    by_cases hst : s = t
    · rw [if_pos hst]
      omega
    · rw [if_neg hst]
      exact h

theorem insertAux_preserves (st : HashMap) (k : kmer_pair) (hash probe fuel : Nat)
    (hinv : tableInv st) :
    tableInv (insertAux st k hash probe fuel).1 ∧
      ∀ s v, dataAt st s = some v → dataAt (insertAux st k hash probe fuel).1 s = some v := by
  induction fuel generalizing st probe with
  | zero => exact ⟨hinv, fun s v h => h⟩
  | succ fuel ih =>
    rw [insertAux_succ]
    by_cases h0 : (request_slot st (slotOf hash probe st.my_size)).1 = 0
    · rw [if_pos h0]
      rw [request_slot_prev] at h0
      constructor
      · intro s
        show dataAt (write_slot (request_slot st (slotOf hash probe st.my_size)).2.1
            (slotOf hash probe st.my_size) k).1 s = none ∨ _
        rw [dataAt_write]
        by_cases hst : s = slotOf hash probe st.my_size
        · right
          rw [usedAt_write, usedAt_request, if_pos hst]
          omega
        · rw [if_neg hst, dataAt_request, usedAt_write, usedAt_request, if_neg hst]
          exact hinv s
      · intro s v hv
        have hne : s ≠ slotOf hash probe st.my_size := by
          intro he
          rcases hinv s with h | h
          · rw [hv] at h
            exact Option.noConfusion h
          · rw [he] at h
            exact h h0
        show dataAt (write_slot (request_slot st (slotOf hash probe st.my_size)).2.1
            (slotOf hash probe st.my_size) k).1 s = some v
        rw [dataAt_write, if_neg hne, dataAt_request]
        exact hv
    · rw [if_neg h0]
      have hinv1 := tableInv_request st (slotOf hash probe st.my_size) hinv
      have hrec := ih (request_slot st (slotOf hash probe st.my_size)).2.1 (probe + 1) hinv1
      refine ⟨hrec.1, fun s v hv => ?_⟩
      apply hrec.2
      rw [dataAt_request]
      exact hv

theorem claimedSet_request_of_claimed (st : HashMap) (t : Nat) (h : usedAt st t ≠ 0) :
    claimedSet (request_slot st t).2.1 = claimedSet st := by
  unfold claimedSet
  have hms : (request_slot st t).2.1.my_size = st.my_size := rfl
  rw [hms]
  apply Finset.filter_congr
  intro s _
  rw [usedAt_request]
  by_cases hst : s = t
  · rw [if_pos hst]
    subst hst
    constructor
    · intro _
      exact h
    · intro _
      omega
  · rw [if_neg hst]

theorem claimedSet_request_sub (st : HashMap) (t : Nat) :
    claimedSet (request_slot st t).2.1 ⊆ insert t (claimedSet st) := by
  intro s hs
  unfold claimedSet at hs
  rw [Finset.mem_filter] at hs
  obtain ⟨hrange, hused⟩ := hs
  have hms : (request_slot st t).2.1.my_size = st.my_size := rfl
  rw [hms] at hrange
  by_cases hst : s = t
  · rw [hst]
    exact Finset.mem_insert_self t _
  · apply Finset.mem_insert_of_mem
    rw [usedAt_request, if_neg hst] at hused
    unfold claimedSet
    rw [Finset.mem_filter]
    exact ⟨hrange, hused⟩

theorem insertAux_claimedCard (st : HashMap) (k : kmer_pair) (hash probe fuel : Nat) :
    (claimedSet (insertAux st k hash probe fuel).1).card ≤ (claimedSet st).card + 1 := by
  induction fuel generalizing st probe with
  | zero => exact Nat.le_succ _
  | succ fuel ih =>
    rw [insertAux_succ]
    by_cases h0 : (request_slot st (slotOf hash probe st.my_size)).1 = 0
    · rw [if_pos h0]
      have heq : claimedSet (write_slot (request_slot st (slotOf hash probe st.my_size)).2.1
          (slotOf hash probe st.my_size) k).1 =
          claimedSet (request_slot st (slotOf hash probe st.my_size)).2.1 := rfl
      show (claimedSet (write_slot (request_slot st (slotOf hash probe st.my_size)).2.1
          (slotOf hash probe st.my_size) k).1).card ≤ _
      rw [heq]
      calc (claimedSet (request_slot st (slotOf hash probe st.my_size)).2.1).card
          ≤ (insert (slotOf hash probe st.my_size) (claimedSet st)).card :=
            Finset.card_le_card (claimedSet_request_sub st _)
        _ ≤ (claimedSet st).card + 1 := Finset.card_insert_le _ _
    · rw [if_neg h0]
      rw [request_slot_prev] at h0
      have := ih (request_slot st (slotOf hash probe st.my_size)).2.1 (probe + 1)
      rw [claimedSet_request_of_claimed st _ h0] at this
      exact this

theorem probedSet_card (hash cap : Nat) (hh : hash < u64) (hcap : cap ≤ u64) :
    cap ≤ 2 * (probedSet hash cap).card := by
  rcases Nat.eq_zero_or_pos cap with hc0 | hcpos
  · omega
  have ha1 : 1 ≤ u64 - hash := by
    have : u64 = 18446744073709551616 := rfl
    omega
  by_cases hwrap : cap ≤ u64 - hash
  · -- no wraparound: the first cap probes are injective
    have hinj : Set.InjOn (fun p => slotOf hash p cap) (Finset.range cap) := by
      intro p1 hp1 p2 hp2 he
      rw [Finset.coe_range, Set.mem_Iio] at hp1 hp2
      have hlt1 : hash + p1 < u64 := by omega
      have hlt2 : hash + p2 < u64 := by omega
      simp only [slotOf, Nat.mod_eq_of_lt hlt1, Nat.mod_eq_of_lt hlt2] at he
      have hmeq : p1 ≡ p2 [MOD cap] := Nat.ModEq.add_left_cancel' hash he
      have hmm : p1 % cap = p2 % cap := hmeq
      rw [Nat.mod_eq_of_lt hp1, Nat.mod_eq_of_lt hp2] at hmm
      exact hmm
    have hcard : (probedSet hash cap).card = cap := by
      unfold probedSet
      rw [Finset.card_image_of_injOn hinj, Finset.card_range]
    omega
  · -- wraparound at a = u64 - hash < cap
    push_neg at hwrap
    have hale : u64 - hash ≤ cap := Nat.le_of_lt hwrap
    -- lower bound 1: the first u64 - hash probes are injective
    have hinj : Set.InjOn (fun p => slotOf hash p cap) (Finset.range (u64 - hash)) := by
      intro p1 hp1 p2 hp2 he
      rw [Finset.coe_range, Set.mem_Iio] at hp1 hp2
      have hlt1 : hash + p1 < u64 := by omega
      have hlt2 : hash + p2 < u64 := by omega
      simp only [slotOf, Nat.mod_eq_of_lt hlt1, Nat.mod_eq_of_lt hlt2] at he
      have hmeq : p1 ≡ p2 [MOD cap] := Nat.ModEq.add_left_cancel' hash he
      have hmm : p1 % cap = p2 % cap := hmeq
      rw [Nat.mod_eq_of_lt (by omega : p1 < cap), Nat.mod_eq_of_lt (by omega : p2 < cap)]
        at hmm
      exact hmm
    have hsub1 : (Finset.range (u64 - hash)).image (fun p => slotOf hash p cap) ⊆
        probedSet hash cap :=
      Finset.image_subset_image (Finset.range_subset.2 hale)
    have hb1 : u64 - hash ≤ (probedSet hash cap).card := by
      have := Finset.card_le_card hsub1
      rw [Finset.card_image_of_injOn hinj, Finset.card_range] at this
      exact this
    -- lower bound 2: the wrapped probes cover 0 .. cap - (u64 - hash) - 1
    have hsub2 : Finset.range (cap - (u64 - hash)) ⊆ probedSet hash cap := by
      intro j hj
      rw [Finset.mem_range] at hj
      unfold probedSet
      rw [Finset.mem_image]
      refine ⟨(u64 - hash) + j, ?_, ?_⟩
      · rw [Finset.mem_range]
        omega
      · have harith : hash + ((u64 - hash) + j) = u64 + j := by omega
        have hju : j < u64 := by omega
        have hjc : j < cap := by omega
        rw [slotOf, harith, Nat.add_mod_left, Nat.mod_eq_of_lt hju, Nat.mod_eq_of_lt hjc]
    have hb2 : cap - (u64 - hash) ≤ (probedSet hash cap).card := by
      have := Finset.card_le_card hsub2
      rw [Finset.card_range] at this
      exact this
    omega

theorem u64_pos : 0 < u64 := by
  have h : u64 = 18446744073709551616 := rfl
  omega

theorem insert_true_of_low_load (H : Nat → Nat) (st : HashMap) (k : kmer_pair)
    (hcap : st.my_size ≤ u64) (hload : 2 * (claimedSet st).card < st.my_size) :
    (insert H st k).2.1 = true := by
  cases hres : (insert H st k).2.1 with
  | true => rfl
  | false =>
    exfalso
    have hclaimed := insertAux_false_claimed st k (H k.kmer % u64) 0 st.my_size hres
    have hsub : probedSet (H k.kmer % u64) st.my_size ⊆ claimedSet st := by
      intro s hs
      unfold probedSet at hs
      rw [Finset.mem_image] at hs
      obtain ⟨p, hp, hps⟩ := hs
      rw [Finset.mem_range] at hp
      unfold claimedSet
      rw [Finset.mem_filter, Finset.mem_range]
      constructor
      · rw [← hps]
        unfold slotOf
        exact Nat.mod_lt _ (by omega)
      · have hcl := hclaimed p hp
        rw [Nat.zero_add] at hcl
        rw [hps] at hcl
        exact hcl
    have h1 := Finset.card_le_card hsub
    have h2 := probedSet_card (H k.kmer % u64) st.my_size (Nat.mod_lt _ u64_pos) hcap
    omega

theorem findAux_none_iff (st : HashMap) (key hash probe fuel : Nat) :
    (findAux st key hash probe fuel).1 = none ↔
      ∀ i < fuel, kmerMatches (dataAt st (slotOf hash (probe + i) st.my_size)) key = false := by
  induction fuel generalizing probe with
  | zero => simp [findAux_zero]
  | succ fuel ih =>
    rw [findAux_succ]
    by_cases hm : kmerMatches (read_slot st (slotOf hash probe st.my_size)).1 key = true
    · rw [if_pos hm]
      rw [read_slot_val] at hm
      constructor
      · intro h
        exfalso
        rw [read_slot_val] at h
        rw [h] at hm
        exact absurd hm (by simp [kmerMatches])
      · intro hall
        exfalso
        have h0 := hall 0 (Nat.succ_pos fuel)
        rw [Nat.add_zero] at h0
        rw [h0] at hm
        exact Bool.noConfusion hm
    · rw [if_neg hm]
      rw [read_slot_val] at hm
      constructor
      · intro h
        intro i hi
        cases i with
        | zero =>
          rw [Nat.add_zero]
          simpa using hm
        | succ j =>
          have hj : j < fuel := by omega
          have hrec := (ih (probe + 1)).mp h j hj
          rw [show probe + (j + 1) = probe + 1 + j from by omega]
          exact hrec
      · intro hall
        apply (ih (probe + 1)).mpr
        intro j hj
        have hrec := hall (j + 1) (by omega)
        rw [show probe + (j + 1) = probe + 1 + j from by omega] at hrec
        exact hrec

theorem findAux_some_key (st : HashMap) (key hash probe fuel : Nat) (r : kmer_pair)
    (h : (findAux st key hash probe fuel).1 = some r) : r.kmer = key := by
  induction fuel generalizing probe with
  | zero =>
    rw [findAux_zero] at h
    exact Option.noConfusion h
  | succ fuel ih =>
    rw [findAux_succ] at h
    by_cases hm : kmerMatches (read_slot st (slotOf hash probe st.my_size)).1 key = true
    · rw [if_pos hm] at h
      rw [read_slot_val] at h hm
      rw [h] at hm
      simpa [kmerMatches] using hm
    · rw [if_neg hm] at h
      exact ih (probe + 1) h

theorem findAux_some_of_match (st : HashMap) (key hash probe fuel : Nat)
    (hex : ∃ i < fuel,
      kmerMatches (dataAt st (slotOf hash (probe + i) st.my_size)) key = true) :
    ∃ r, (findAux st key hash probe fuel).1 = some r := by
  cases hres : (findAux st key hash probe fuel).1 with
  | some r => exact ⟨r, rfl⟩
  | none =>
    exfalso
    obtain ⟨i, hi, hmatch⟩ := hex
    have hflat := (findAux_none_iff st key hash probe fuel).mp hres i hi
    rw [hflat] at hmatch
    exact Bool.noConfusion hmatch

theorem findAux_none_trace (st : HashMap) (key hash probe fuel : Nat)
    (h : (findAux st key hash probe fuel).1 = none) :
    (findAux st key hash probe fuel).2 =
      (List.range' probe fuel).map (fun p => rgOpAt st (slotOf hash p st.my_size)) := by
  induction fuel generalizing probe with
  | zero => rfl
  | succ fuel ih =>
    rw [findAux_succ] at h ⊢
    by_cases hm : kmerMatches (read_slot st (slotOf hash probe st.my_size)).1 key = true
    · rw [if_pos hm] at h
      exfalso
      rw [read_slot_val] at h hm
      rw [h] at hm
      exact absurd hm (by simp [kmerMatches])
    · rw [if_neg hm] at h ⊢
      rw [List.range'_succ, List.map_cons]
      show (read_slot st (slotOf hash probe st.my_size)).2 :: _ = _
      rw [read_slot_op_rg]
      exact congrArg (rgOpAt st (slotOf hash probe st.my_size) :: ·) (ih (probe + 1) h)

theorem findAux_ops_slots (st : HashMap) (key hash probe fuel : Nat) :
    ∀ op ∈ (findAux st key hash probe fuel).2,
      ∃ i < fuel, op = rgOpAt st (slotOf hash (probe + i) st.my_size) := by
  induction fuel generalizing probe with
  | zero => intro op hop; exact absurd hop (by simp [findAux_zero])
  | succ fuel ih =>
    intro op hop
    rw [findAux_succ] at hop
    by_cases hm : kmerMatches (read_slot st (slotOf hash probe st.my_size)).1 key = true
    · rw [if_pos hm] at hop
      have hop1 : op = (read_slot st (slotOf hash probe st.my_size)).2 := by
        simpa using hop
      refine ⟨0, Nat.succ_pos fuel, ?_⟩
      rw [Nat.add_zero, hop1, read_slot_op_rg]
    · rw [if_neg hm] at hop
      have hop1 : op = (read_slot st (slotOf hash probe st.my_size)).2 ∨
          op ∈ (findAux st key hash (probe + 1) fuel).2 := by
        simpa using hop
      rcases hop1 with h1 | h1
      · refine ⟨0, Nat.succ_pos fuel, ?_⟩
        rw [Nat.add_zero, h1, read_slot_op_rg]
      · obtain ⟨i, hi, hop2⟩ := ih (probe + 1) op h1
        refine ⟨i + 1, by omega, ?_⟩
        rw [show probe + (i + 1) = probe + 1 + i from by omega]
        exact hop2

theorem insertAux_ops_slots (st : HashMap) (k : kmer_pair) (hash probe fuel : Nat) :
    ∀ op ∈ (insertAux st k hash probe fuel).2.2,
      ∃ i < fuel, (op = faOpAt st (slotOf hash (probe + i) st.my_size) ∨
        op = wrOpAt st (slotOf hash (probe + i) st.my_size)) := by
  induction fuel generalizing st probe with
  | zero => intro op hop; exact absurd hop (by simp [insertAux_zero])
  | succ fuel ih =>
    intro op hop
    rw [insertAux_succ] at hop
    by_cases h0 : (request_slot st (slotOf hash probe st.my_size)).1 = 0
    · rw [if_pos h0] at hop
      have hop1 : op = (request_slot st (slotOf hash probe st.my_size)).2.2 ∨
          op = (write_slot (request_slot st (slotOf hash probe st.my_size)).2.1
            (slotOf hash probe st.my_size) k).2 := by
        simpa using hop
      rcases hop1 with h1 | h1
      · refine ⟨0, Nat.succ_pos fuel, Or.inl ?_⟩
        rw [Nat.add_zero, h1, request_slot_op_fa]
      · refine ⟨0, Nat.succ_pos fuel, Or.inr ?_⟩
        rw [Nat.add_zero, h1, write_slot_op_wr]
        rfl
    · rw [if_neg h0] at hop
      have hop1 : op = (request_slot st (slotOf hash probe st.my_size)).2.2 ∨
          op ∈ (insertAux (request_slot st (slotOf hash probe st.my_size)).2.1 k hash
            (probe + 1) fuel).2.2 := by
        simpa using hop
      rcases hop1 with h1 | h1
      · refine ⟨0, Nat.succ_pos fuel, Or.inl ?_⟩
        rw [Nat.add_zero, h1, request_slot_op_fa]
      · obtain ⟨i, hi, hop2⟩ := ih (request_slot st (slotOf hash probe st.my_size)).2.1
          (probe + 1) op h1
        refine ⟨i + 1, by omega, ?_⟩
        rw [show probe + (i + 1) = probe + 1 + i from by omega]
        exact hop2

theorem insertAux_ops_waited (st : HashMap) (k : kmer_pair) (hash probe fuel : Nat) :
    ∀ op ∈ (insertAux st k hash probe fuel).2.2,
      (op.kind = OpKind.rput ∧ op.waited = false) ∨
        (op.kind ≠ OpKind.rput ∧ op.waited = true) := by
  intro op hop
  obtain ⟨i, _, h | h⟩ := insertAux_ops_slots st k hash probe fuel op hop
  · right
    rw [h]
    exact ⟨by simp [faOpAt], rfl⟩
  · left
    rw [h]
    exact ⟨rfl, rfl⟩

theorem findAux_ops_waited (st : HashMap) (key hash probe fuel : Nat) :
    ∀ op ∈ (findAux st key hash probe fuel).2, op.waited = true := by
  intro op hop
  obtain ⟨i, _, h⟩ := findAux_ops_slots st key hash probe fuel op hop
  rw [h]
  rfl

theorem insert_my_size (H : Nat → Nat) (st : HashMap) (k : kmer_pair) :
    (insert H st k).1.my_size = st.my_size :=
  insertAux_my_size st k (H k.kmer % u64) 0 st.my_size

theorem insertAll_nil (H : Nat → Nat) (st : HashMap) : insertAll H st [] = (st, []) := rfl

theorem insertAll_cons (H : Nat → Nat) (st : HashMap) (k : kmer_pair) (ks : List kmer_pair) :
    insertAll H st (k :: ks) =
      ((insertAll H (insert H st k).1 ks).1,
        (insert H st k).2.1 :: (insertAll H (insert H st k).1 ks).2) := rfl

theorem insertAll_my_size (H : Nat → Nat) (st : HashMap) (rs : List kmer_pair) :
    (insertAll H st rs).1.my_size = st.my_size := by
  induction rs generalizing st with
  | nil => rfl
  | cons k ks ih =>
    rw [insertAll_cons]
    show (insertAll H (insert H st k).1 ks).1.my_size = st.my_size
    rw [ih (insert H st k).1, insert_my_size]

theorem insertAll_tableInv (H : Nat → Nat) (st : HashMap) (rs : List kmer_pair)
    (hinv : tableInv st) : tableInv (insertAll H st rs).1 := by
  induction rs generalizing st with
  | nil => exact hinv
  | cons k ks ih =>
    rw [insertAll_cons]
    exact ih (insert H st k).1 (insertAux_preserves st k (H k.kmer % u64) 0 st.my_size hinv).1

theorem insertAll_preserve_data (H : Nat → Nat) (st : HashMap) (rs : List kmer_pair)
    (s : Nat) (v : kmer_pair) (hinv : tableInv st) (hv : dataAt st s = some v) :
    dataAt (insertAll H st rs).1 s = some v := by
  induction rs generalizing st with
  | nil => exact hv
  | cons k ks ih =>
    rw [insertAll_cons]
    exact ih (insert H st k).1
      (insertAux_preserves st k (H k.kmer % u64) 0 st.my_size hinv).1
      ((insertAux_preserves st k (H k.kmer % u64) 0 st.my_size hinv).2 s v hv)

theorem insertAll_all_true (H : Nat → Nat) (st : HashMap) (rs : List kmer_pair)
    (hinv : tableInv st) (hcap : st.my_size ≤ u64)
    (hload : 2 * ((claimedSet st).card + rs.length) ≤ st.my_size) :
    ∀ b ∈ (insertAll H st rs).2, b = true := by
  induction rs generalizing st with
  | nil => intro b hb; exact absurd hb (by simp [insertAll_nil])
  | cons k ks ih =>
    have hsucc : (insert H st k).2.1 = true := by
      apply insert_true_of_low_load H st k hcap
      rw [List.length_cons] at hload
      omega
    have hinv1 : tableInv (insert H st k).1 :=
      (insertAux_preserves st k (H k.kmer % u64) 0 st.my_size hinv).1
    have hms1 : (insert H st k).1.my_size = st.my_size := insert_my_size H st k
    have hcc : (claimedSet (insert H st k).1).card ≤ (claimedSet st).card + 1 :=
      insertAux_claimedCard st k (H k.kmer % u64) 0 st.my_size
    intro b hb
    rw [insertAll_cons] at hb
    rcases List.mem_cons.mp hb with he | ht
    · rw [he]
      exact hsucc
    · apply ih (insert H st k).1 hinv1 (by rw [hms1]; exact hcap) ?_ b ht
      rw [hms1, List.length_cons] at *
      omega

theorem insertAll_present (H : Nat → Nat) (st : HashMap) (rs : List kmer_pair)
    (hinv : tableInv st) (hcap : st.my_size ≤ u64)
    (hload : 2 * ((claimedSet st).card + rs.length) ≤ st.my_size) :
    ∀ r ∈ rs, ∃ p < st.my_size,
      dataAt (insertAll H st rs).1 (slotOf (H r.kmer % u64) p st.my_size) = some r := by
  induction rs generalizing st with
  | nil => intro r hr; exact absurd hr (by simp)
  | cons k ks ih =>
    intro r hr
    have hsucc : (insert H st k).2.1 = true := by
      apply insert_true_of_low_load H st k hcap
      rw [List.length_cons] at hload
      omega
    have hinv1 : tableInv (insert H st k).1 :=
      (insertAux_preserves st k (H k.kmer % u64) 0 st.my_size hinv).1
    have hms1 : (insert H st k).1.my_size = st.my_size := insert_my_size H st k
    have hcc : (claimedSet (insert H st k).1).card ≤ (claimedSet st).card + 1 :=
      insertAux_claimedCard st k (H k.kmer % u64) 0 st.my_size
    rcases List.mem_cons.mp hr with he | hts
    · subst he
      obtain ⟨m, hm, _, _, hdata, _⟩ :=
        insertAux_true_char st r (H r.kmer % u64) 0 st.my_size hsucc
      rw [Nat.zero_add] at hdata
      refine ⟨m, hm, ?_⟩
      rw [insertAll_cons]
      exact insertAll_preserve_data H (insert H st r).1 ks _ r hinv1 hdata
    · have hload1 : 2 * ((claimedSet (insert H st k).1).card + ks.length) ≤
          (insert H st k).1.my_size := by
        rw [hms1, List.length_cons] at *
        omega
      obtain ⟨p, hp, hdata⟩ :=
        ih (insert H st k).1 hinv1 (by rw [hms1]; exact hcap) hload1 r hts
      rw [hms1] at hp hdata
      refine ⟨p, hp, ?_⟩
      rw [insertAll_cons]
      exact hdata

/-- C1: records with pairwise-distinct keys inserted at low load factor (here:
capacity at least twice the record count, capacity within the 64-bit size_t
range) into a fresh table: every insert returns success, and after the insert
phase, find on each inserted key succeeds with a record whose key equals the
searched key. -/
theorem insert_phase_then_find (H : Nat → Nat) (rs : List kmer_pair) (cap ranks : Nat)
    (hdistinct : rs.Pairwise (fun a b => a.kmer ≠ b.kmer))
    (hload : 2 * rs.length ≤ cap) (hcap : cap ≤ u64) :
    (∀ b ∈ (insertAll H (HashMap.init cap ranks) rs).2, b = true) ∧
      ∀ r ∈ rs, ∃ v ops,
        find H (insertAll H (HashMap.init cap ranks) rs).1 r.kmer = some (some v, ops) ∧
          v.kmer = r.kmer := by
  have hinv0 : tableInv (HashMap.init cap ranks) := tableInv_init cap ranks
  have hcard0 : (claimedSet (HashMap.init cap ranks)).card = 0 := by
    unfold claimedSet
    have h096 : ∀ s ∈ Finset.range (HashMap.init cap ranks).my_size,
        ¬ (usedAt (HashMap.init cap ranks) s ≠ 0) := fun s _ h => h rfl
    rw [Finset.filter_false_of_mem h096, Finset.card_empty]
  have hms0 : (HashMap.init cap ranks).my_size = cap := rfl
  have hload0 : 2 * ((claimedSet (HashMap.init cap ranks)).card + rs.length) ≤
      (HashMap.init cap ranks).my_size := by
    rw [hms0, hcard0]
    omega
  constructor
  · exact insertAll_all_true H (HashMap.init cap ranks) rs hinv0 (by rw [hms0]; exact hcap)
      hload0
  · intro r hr
    obtain ⟨p, hp, hdata⟩ := insertAll_present H (HashMap.init cap ranks) rs hinv0
      (by rw [hms0]; exact hcap) hload0 r hr
    rw [hms0] at hp hdata
    have hmsf : (insertAll H (HashMap.init cap ranks) rs).1.my_size = cap :=
      insertAll_my_size H (HashMap.init cap ranks) rs
    have hcap1 : 1 ≤ cap := by omega
    have hfind : find H (insertAll H (HashMap.init cap ranks) rs).1 r.kmer =
        some (findAux (insertAll H (HashMap.init cap ranks) rs).1 r.kmer
          (H r.kmer % u64) 0 (insertAll H (HashMap.init cap ranks) rs).1.my_size) := by
      unfold find
      rw [if_neg (by rw [hmsf]; omega)]
    have hex : ∃ i < (insertAll H (HashMap.init cap ranks) rs).1.my_size,
        kmerMatches (dataAt (insertAll H (HashMap.init cap ranks) rs).1
          (slotOf (H r.kmer % u64) (0 + i)
            (insertAll H (HashMap.init cap ranks) rs).1.my_size)) r.kmer = true := by
      refine ⟨p, by rw [hmsf]; exact hp, ?_⟩
      rw [Nat.zero_add, hmsf, hdata]
      simp [kmerMatches]
    obtain ⟨v, hv⟩ := findAux_some_of_match (insertAll H (HashMap.init cap ranks) rs).1
      r.kmer (H r.kmer % u64) 0 (insertAll H (HashMap.init cap ranks) rs).1.my_size hex
    have hkey := findAux_some_key (insertAll H (HashMap.init cap ranks) rs).1 r.kmer
      (H r.kmer % u64) 0 (insertAll H (HashMap.init cap ranks) rs).1.my_size v hv
    refine ⟨v, (findAux (insertAll H (HashMap.init cap ranks) rs).1 r.kmer
      (H r.kmer % u64) 0 (insertAll H (HashMap.init cap ranks) rs).1.my_size).2,
      ?_, hkey⟩
    rw [hfind, ← hv]

theorem requestSeq_zero (st : HashMap) (slot : Nat) : requestSeq st slot 0 = ([], st) := rfl

theorem requestSeq_succ (st : HashMap) (slot n : Nat) :
    requestSeq st slot (n + 1) =
      ((request_slot st slot).1 :: (requestSeq (request_slot st slot).2.1 slot n).1,
        (requestSeq (request_slot st slot).2.1 slot n).2) := rfl

theorem requestSeq_prevs (st : HashMap) (slot n c : Nat) (hc : usedAt st slot = c) :
    (requestSeq st slot n).1 = List.range' c n := by
  induction n generalizing st c with
  | zero => rfl
  | succ n ih =>
    rw [requestSeq_succ, List.range'_succ]
    have h1 : usedAt (request_slot st slot).2.1 slot = c + 1 := by
      rw [usedAt_request, if_pos rfl, hc]
    rw [ih (request_slot st slot).2.1 (c + 1) h1, request_slot_prev, hc]

/-- C5: on a slot whose counter starts at 0, among n consecutive requestSlot
calls (each an atomic fetch-add of 1), exactly one call receives previous
value 0 — the first — and every later call receives a non-zero previous
value.  Counters are modified only by request_slot, so this covers all
requestSlot calls ever made on the slot. -/
theorem request_slot_one_winner (st : HashMap) (slot n : Nat)
    (h0 : usedAt st slot = 0) (hn : 1 ≤ n) :
    ((requestSeq st slot n).1).count 0 = 1 ∧
      (requestSeq st slot n).1.head? = some 0 ∧
      ∀ i : Nat, 1 ≤ i → i < n → (requestSeq st slot n).1.get? i ≠ some 0 := by
  rw [requestSeq_prevs st slot n 0 h0]
  refine ⟨?_, ?_, ?_⟩
  · rw [← List.range_eq_range']
    exact List.count_eq_one_of_mem (List.nodup_range n) (List.mem_range.mpr (by omega))
  · cases n with
    | zero => omega
    | succ m => rw [List.range'_succ]; rfl
  · intro i hi1 hin
    rw [← List.range_eq_range']
    rw [List.get?_range (by omega)]
    intro h
    have : i = 0 := Option.some.inj h
    omega

theorem applyOp_used_mono (H : Nat → Nat) (st : HashMap) (op : TableOp) (r o : Nat) :
    st.used r o ≤ (applyOp H st op).used r o := by
  cases op with
  | ins k => exact insertAux_used_mono st k (H k.kmer % u64) 0 st.my_size r o
  | fnd key => exact Nat.le_refl _
  | req s =>
    show st.used r o ≤ (request_slot st s).2.1.used r o
    rw [used_request_raw]
    by_cases hloc : r = (locate_slot st s).rank ∧ o = (locate_slot st s).offset
    · rw [if_pos hloc]; omega
    · rw [if_neg hloc]

theorem applyOp_data_change (H : Nat → Nat) (st : HashMap) (op : TableOp) (r o : Nat)
    (h : (applyOp H st op).data r o ≠ st.data r o) :
    st.used r o = 0 ∧ (applyOp H st op).used r o ≠ 0 := by
  cases op with
  | ins k => exact insertAux_data_change st k (H k.kmer % u64) 0 st.my_size r o h
  | fnd key => exact absurd rfl h
  | req s => exact absurd rfl h

theorem applyOps_used_mono (H : Nat → Nat) (st : HashMap) (ops : List TableOp) (r o : Nat) :
    st.used r o ≤ (applyOps H st ops).used r o := by
  induction ops generalizing st with
  | nil => exact Nat.le_refl _
  | cons op ops ih =>
    exact Nat.le_trans (applyOp_used_mono H st op r o) (ih (applyOp H st op))

/-- C6: per slot location, every table operation (insert, find, requestSlot)
moves the occupancy counter monotonically: the counter never decreases, a
non-zero counter never reverts to zero (so the 0-to-non-zero transition
happens at most once along any execution), and the record memory of a
location changes only when the writer claims that location, taking its
counter from 0 to non-zero. -/
theorem slot_counter_invariant (H : Nat → Nat) (st : HashMap) (op : TableOp) (r o : Nat) :
    st.used r o ≤ (applyOp H st op).used r o ∧
      (st.used r o ≠ 0 → (applyOp H st op).used r o ≠ 0) ∧
      ((applyOp H st op).data r o ≠ st.data r o →
        st.used r o = 0 ∧ (applyOp H st op).used r o ≠ 0) ∧
      ∀ ops : List TableOp, st.used r o ≤ (applyOps H st ops).used r o ∧
        (st.used r o ≠ 0 → (applyOps H st ops).used r o ≠ 0) := by
  refine ⟨applyOp_used_mono H st op r o, ?_, applyOp_data_change H st op r o, ?_⟩
  · intro h
    have := applyOp_used_mono H st op r o
    omega
  · intro ops
    refine ⟨applyOps_used_mono H st ops r o, ?_⟩
    intro h
    have := applyOps_used_mono H st ops r o
    omega

/-- C6 witness at a concrete state, operation and location. -/
theorem slot_counter_invariant_witness :
    (HashMap.init 2 1).used 0 0 ≤
      (applyOp idH (HashMap.init 2 1) (TableOp.ins ⟨5, 0⟩)).used 0 0 ∧
      (HashMap.init 2 1).used 0 0 ≤
        (applyOps idH (HashMap.init 2 1)
          [TableOp.ins ⟨5, 0⟩, TableOp.req 1, TableOp.fnd 5]).used 0 0 :=
  ⟨(slot_counter_invariant idH (HashMap.init 2 1) (TableOp.ins ⟨5, 0⟩) 0 0).1,
   ((slot_counter_invariant idH (HashMap.init 2 1) (TableOp.ins ⟨5, 0⟩) 0 0).2.2.2
     [TableOp.ins ⟨5, 0⟩, TableOp.req 1, TableOp.fnd 5]).1⟩

/-- C5 witness: a fresh slot of a concrete table, three consecutive
requestSlot calls. -/
theorem request_slot_one_winner_witness :
    usedAt (HashMap.init 4 2) 1 = 0 ∧ 1 ≤ 3 ∧
      ((requestSeq (HashMap.init 4 2) 1 3).1).count 0 = 1 ∧
      (requestSeq (HashMap.init 4 2) 1 3).1.head? = some 0 ∧
      ∀ i : Nat, 1 ≤ i → i < 3 → (requestSeq (HashMap.init 4 2) 1 3).1.get? i ≠ some 0 :=
  ⟨by decide, by decide,
    (request_slot_one_winner (HashMap.init 4 2) 1 3 (by decide) (by decide)).1,
    (request_slot_one_winner (HashMap.init 4 2) 1 3 (by decide) (by decide)).2.1,
    (request_slot_one_winner (HashMap.init 4 2) 1 3 (by decide) (by decide)).2.2⟩

/-- C7: the partition map is the pure function owner(s) = s / L,
offset(s) = s % L with L = floor(capacity / participantCount) + 1 fixed at
construction, and the sum of per-participant local capacities, namely
participantCount * L, covers the whole table. -/
theorem partition_map_spec (cap ranks s : Nat) (hP : 1 ≤ ranks) :
    locate_slot (HashMap.init cap ranks) s =
      ⟨s / (cap / ranks + 1), s % (cap / ranks + 1)⟩ ∧
      (HashMap.init cap ranks).slots_per_rank = cap / ranks + 1 ∧
      cap ≤ ranks * (HashMap.init cap ranks).slots_per_rank := by
  refine ⟨rfl, rfl, ?_⟩
  show cap ≤ ranks * (cap / ranks + 1)
  have h1 := Nat.div_add_mod cap ranks
  have h2 : cap % ranks < ranks := Nat.mod_lt cap hP
  have h3 : ranks * (cap / ranks + 1) = ranks * (cap / ranks) + ranks := by ring
  omega

/-- C7 witness: capacity 5 split over 2 participants. -/
theorem partition_map_spec_witness :
    1 ≤ 2 ∧
      (locate_slot (HashMap.init 5 2) 4 = ⟨4 / (5 / 2 + 1), 4 % (5 / 2 + 1)⟩ ∧
        (HashMap.init 5 2).slots_per_rank = 5 / 2 + 1 ∧
        5 ≤ 2 * (HashMap.init 5 2).slots_per_rank) :=
  ⟨by decide, partition_map_spec 5 2 4 (by decide)⟩

/-- C10: a size-0 table makes find undefined (modulo by zero on its first
do-while iteration, before the loop condition is evaluated), while insert
returns false performing no slot access at all: empty operation trace and
unchanged state. -/
theorem size_zero_behaviour (H : Nat → Nat) (st : HashMap) (k : kmer_pair) (key : Nat)
    (h0 : st.my_size = 0) :
    find H st key = none ∧ insert H st k = (st, false, []) := by
  constructor
  · unfold find
    rw [if_pos h0]
  · show insertAux st k (H k.kmer % u64) 0 st.my_size = (st, false, [])
    rw [h0]
    exact insertAux_zero st k (H k.kmer % u64) 0

/-- C10 witness: the size-0 single-rank table. -/
theorem size_zero_behaviour_witness :
    (HashMap.init 0 1).my_size = 0 ∧
      (find idH (HashMap.init 0 1) 7 = none ∧
        insert idH (HashMap.init 0 1) ⟨7, 0⟩ = (HashMap.init 0 1, false, [])) :=
  ⟨rfl, size_zero_behaviour idH (HashMap.init 0 1) ⟨7, 0⟩ 7 rfl⟩

/-- C9: on a table whose capacity fits in the participants' segments
(capacity at most P * slots_per_rank, as the constructor guarantees), every
logical slot below capacity locates to a rank below P and an offset below
slots_per_rank, and every remote operation issued by insert and find
addresses such an in-bounds location. -/
theorem remote_access_in_bounds (st : HashMap) (P : Nat) (H : Nat → Nat)
    (k : kmer_pair) (key : Nat)
    (hL : 1 ≤ st.slots_per_rank) (hcap : 1 ≤ st.my_size)
    (hPL : st.my_size ≤ P * st.slots_per_rank) :
    (∀ s < st.my_size, (locate_slot st s).rank < P ∧
      (locate_slot st s).offset < st.slots_per_rank) ∧
      (∀ op ∈ (insert H st k).2.2, op.rank < P ∧ op.offset < st.slots_per_rank) ∧
      (∀ res, find H st key = some res →
        ∀ op ∈ res.2, op.rank < P ∧ op.offset < st.slots_per_rank) := by
  have hbound : ∀ s < st.my_size, (locate_slot st s).rank < P ∧
      (locate_slot st s).offset < st.slots_per_rank := by
    intro s hs
    constructor
    · show s / st.slots_per_rank < P
      rw [Nat.div_lt_iff_lt_mul hL]
      omega
    · exact Nat.mod_lt s hL
  refine ⟨hbound, ?_, ?_⟩
  · intro op hop
    obtain ⟨i, _, h | h⟩ := insertAux_ops_slots st k (H k.kmer % u64) 0 st.my_size op hop
    · rw [h]
      exact hbound _ (Nat.mod_lt _ (by omega))
    · rw [h]
      exact hbound _ (Nat.mod_lt _ (by omega))
  · intro res hres op hop
    unfold find at hres
    by_cases h0 : st.my_size = 0
    · rw [if_pos h0] at hres
      exact Option.noConfusion hres
    · rw [if_neg h0] at hres
      have hres2 : res = findAux st key (H key % u64) 0 st.my_size :=
        (Option.some.inj hres).symm
      rw [hres2] at hop
      obtain ⟨i, _, h⟩ := findAux_ops_slots st key (H key % u64) 0 st.my_size op hop
      rw [h]
      exact hbound _ (Nat.mod_lt _ (by omega))

/-- C9 witness: capacity 5 over 2 ranks (slots_per_rank 3), a concrete insert
and find. -/
theorem remote_access_in_bounds_witness :
    (1 ≤ (HashMap.init 5 2).slots_per_rank ∧ 1 ≤ (HashMap.init 5 2).my_size ∧
      (HashMap.init 5 2).my_size ≤ 2 * (HashMap.init 5 2).slots_per_rank) ∧
      ((∀ s < (HashMap.init 5 2).my_size,
        (locate_slot (HashMap.init 5 2) s).rank < 2 ∧
          (locate_slot (HashMap.init 5 2) s).offset <
            (HashMap.init 5 2).slots_per_rank) ∧
        (∀ op ∈ (insert idH (HashMap.init 5 2) ⟨4, 0⟩).2.2,
          op.rank < 2 ∧ op.offset < (HashMap.init 5 2).slots_per_rank) ∧
        (∀ res, find idH (HashMap.init 5 2) 4 = some res →
          ∀ op ∈ res.2, op.rank < 2 ∧ op.offset < (HashMap.init 5 2).slots_per_rank)) :=
  ⟨⟨by decide, by decide, by decide⟩,
    remote_access_in_bounds (HashMap.init 5 2) 2 idH ⟨4, 0⟩ 4
      (by decide) (by decide) (by decide)⟩

/-- C2 (amended): insert computes the 64-bit hash of the key once and probes
candidates probe = 0, 1, ... in order, but the requested slot is
((hash + probe) mod 2^64) mod capacity — the uint64_t sum wraps before the
capacity modulus is applied.  It returns success exactly when some probe's
fetch-add returns previous value 0 (the record is then written to that
winning slot), and returns failure after exactly capacity fetch-add probes
are exhausted without winning a slot. -/
theorem insert_probe_spec (H : Nat → Nat) (st : HashMap) (k : kmer_pair) :
    ((insert H st k).2.1 = true ↔
      ∃ p < st.my_size, usedAt st (slotOf (H k.kmer % u64) p st.my_size) = 0) ∧
      ((insert H st k).2.1 = false →
        (insert H st k).2.2 = (List.range' 0 st.my_size).map
          (fun p => faOpAt st (slotOf (H k.kmer % u64) p st.my_size)) ∧
        (insert H st k).2.2.length = st.my_size) ∧
      ((insert H st k).2.1 = true →
        ∃ m < st.my_size, usedAt st (slotOf (H k.kmer % u64) m st.my_size) = 0 ∧
          (∀ j < m, usedAt st (slotOf (H k.kmer % u64) j st.my_size) ≠ 0) ∧
          dataAt (insert H st k).1 (slotOf (H k.kmer % u64) m st.my_size) = some k ∧
          (insert H st k).2.2 =
            (List.range' 0 (m + 1)).map
              (fun p => faOpAt st (slotOf (H k.kmer % u64) p st.my_size)) ++
              [wrOpAt st (slotOf (H k.kmer % u64) m st.my_size)]) := by
  refine ⟨?_, ?_, ?_⟩
  · constructor
    · intro ht
      obtain ⟨m, hm, hfree, _, _, _⟩ :=
        insertAux_true_char st k (H k.kmer % u64) 0 st.my_size ht
      rw [Nat.zero_add] at hfree
      exact ⟨m, hm, hfree⟩
    · intro ⟨p, hp, hfree⟩
      cases hres : (insert H st k).2.1 with
      | true => rfl
      | false =>
        exfalso
        have hcl := insertAux_false_claimed st k (H k.kmer % u64) 0 st.my_size hres p hp
        rw [Nat.zero_add] at hcl
        exact hcl hfree
  · intro hf
    have htr := insertAux_false_trace st k (H k.kmer % u64) 0 st.my_size hf
    refine ⟨htr, ?_⟩
    show (insertAux st k (H k.kmer % u64) 0 st.my_size).2.2.length = st.my_size
    rw [htr, List.length_map, List.length_range']
  · intro ht
    obtain ⟨m, hm, hfree, hblocked, hdata, htrace⟩ :=
      insertAux_true_char st k (H k.kmer % u64) 0 st.my_size ht
    rw [Nat.zero_add] at hfree hdata htrace
    simp only [Nat.zero_add] at hblocked
    exact ⟨m, hm, hfree, hblocked, hdata, htrace⟩

/-- C2 counterexample: on a capacity-3 single-rank table whose slot 0 is
claimed, an insert of a record hashing to 2^64 - 1 succeeds, but the
locations of the fetch-add requests it issues are (0,0), (0,0), (0,1) — the
uint64_t sum hash + probe wraps to 0 at probe 1 — while the claimed formula
(hash + probe) mod capacity predicts slots 0, 1, 2, located at (0,0), (0,1),
(0,2).  The claim's predicted request sequence is wrong at the second
probe. -/
theorem insert_probe_formula_cex :
    (insert topH c2State ⟨2, 0⟩).2.1 = true ∧
      fetchAddLocs (insert topH c2State ⟨2, 0⟩).2.2 = [(0, 0), (0, 0), (0, 1)] ∧
      c2SpecSlots = [0, 1, 2] ∧
      c2SpecLocs = [(0, 0), (0, 1), (0, 2)] ∧
      fetchAddLocs (insert topH c2State ⟨2, 0⟩).2.2 ≠ c2SpecLocs := by decide

/-- C2 witness: a successful insert on a fresh capacity-2 table under the
constant hash 1. -/
theorem insert_probe_spec_witness :
    ((insert oneH (HashMap.init 2 1) ⟨9, 0⟩).2.1 = true ↔
      ∃ p < 2, usedAt (HashMap.init 2 1) (slotOf (oneH 9 % u64) p 2) = 0) ∧
      ((insert oneH (HashMap.init 2 1) ⟨9, 0⟩).2.1 = true →
        ∃ m < 2, usedAt (HashMap.init 2 1) (slotOf (oneH 9 % u64) m 2) = 0 ∧
          (∀ j < m, usedAt (HashMap.init 2 1) (slotOf (oneH 9 % u64) j 2) ≠ 0) ∧
          dataAt (insert oneH (HashMap.init 2 1) ⟨9, 0⟩).1
            (slotOf (oneH 9 % u64) m 2) = some ⟨9, 0⟩ ∧
          (insert oneH (HashMap.init 2 1) ⟨9, 0⟩).2.2 =
            (List.range' 0 (m + 1)).map
              (fun p => faOpAt (HashMap.init 2 1) (slotOf (oneH 9 % u64) p 2)) ++
              [wrOpAt (HashMap.init 2 1) (slotOf (oneH 9 % u64) m 2)]) :=
  ⟨(insert_probe_spec oneH (HashMap.init 2 1) ⟨9, 0⟩).1,
   (insert_probe_spec oneH (HashMap.init 2 1) ⟨9, 0⟩).2.2⟩

/-- C3 (amended): when insert fails with TableFull after exhausting all
capacity probes, no record is written (the record arena is unchanged) and no
slot's claim status changes (a counter is zero after the call exactly when it
was zero before), but the table state is not literally unchanged: the
fetch-add of every failing probe increments the probed slot's occupancy
counter. -/
theorem insert_full_claim_status (H : Nat → Nat) (st : HashMap) (k : kmer_pair)
    (hf : (insert H st k).2.1 = false) :
    (insert H st k).1.data = st.data ∧
      (∀ r o, ((insert H st k).1.used r o = 0 ↔ st.used r o = 0)) ∧
      (insert H st k).1.my_size = st.my_size ∧
      (insert H st k).1.slots_per_rank = st.slots_per_rank :=
  ⟨(insertAux_false_state st k (H k.kmer % u64) 0 st.my_size hf).1,
   (insertAux_false_state st k (H k.kmer % u64) 0 st.my_size hf).2,
   insertAux_my_size st k (H k.kmer % u64) 0 st.my_size,
   insertAux_spr st k (H k.kmer % u64) 0 st.my_size⟩

/-- C3 counterexample: on a full capacity-1 table (slot 0 claimed, counter 1)
insert of a second record fails, yet the table state is changed by the call:
the occupancy counter of slot 0 goes from 1 to 2 through the failing probe's
fetch-add. -/
theorem insert_full_state_changed_cex :
    (insert zeroH c3State ⟨2, 0⟩).2.1 = false ∧
      c3State.used 0 0 = 1 ∧
      (insert zeroH c3State ⟨2, 0⟩).1.used 0 0 = 2 := by decide

/-- C3 witness: the failing insert on the full capacity-1 table. -/
theorem insert_full_claim_status_witness :
    (insert zeroH c3State ⟨2, 0⟩).2.1 = false ∧
      ((insert zeroH c3State ⟨2, 0⟩).1.data = c3State.data ∧
        (∀ r o, ((insert zeroH c3State ⟨2, 0⟩).1.used r o = 0 ↔
          c3State.used r o = 0)) ∧
        (insert zeroH c3State ⟨2, 0⟩).1.my_size = c3State.my_size ∧
        (insert zeroH c3State ⟨2, 0⟩).1.slots_per_rank = c3State.slots_per_rank) :=
  ⟨by decide, insert_full_claim_status zeroH c3State ⟨2, 0⟩ (by decide)⟩

/-- C4 (amended): insert and find block on the completion handle of every
fetch-add and remote-read operation before proceeding to the next probe step,
but the remote write of the record is issued with its completion handle
discarded: a successful insert's trace ends with an rput that is never waited
on, so insert returns success without waiting for the record write to
complete. -/
theorem remote_wait_discipline (H : Nat → Nat) (st : HashMap) (k : kmer_pair)
    (key : Nat) :
    (∀ op ∈ (insert H st k).2.2,
      (op.kind = OpKind.rput ∧ op.waited = false) ∨
        (op.kind ≠ OpKind.rput ∧ op.waited = true)) ∧
      (∀ res, find H st key = some res → ∀ op ∈ res.2, op.waited = true) ∧
      ((insert H st k).2.1 = true →
        ∃ ops1 wop, (insert H st k).2.2 = ops1 ++ [wop] ∧
          wop.kind = OpKind.rput ∧ wop.waited = false) := by
  refine ⟨insertAux_ops_waited st k (H k.kmer % u64) 0 st.my_size, ?_, ?_⟩
  · intro res hres op hop
    unfold find at hres
    by_cases h0 : st.my_size = 0
    · rw [if_pos h0] at hres
      exact Option.noConfusion hres
    · rw [if_neg h0] at hres
      rw [← Option.some.inj hres] at hop
      exact findAux_ops_waited st key (H key % u64) 0 st.my_size op hop
  · intro hs
    obtain ⟨m, _, _, _, _, htrace⟩ :=
      insertAux_true_char st k (H k.kmer % u64) 0 st.my_size hs
    exact ⟨_, _, htrace, rfl, rfl⟩

/-- C4 counterexample: a successful insert on a fresh capacity-1 table issues
a remote operation that is never waited on (the rput of the record), so it is
false that insert blocks on every completion handle — in particular insert
does not wait for the record write before returning success. -/
theorem insert_write_not_waited_cex :
    (insert zeroH (HashMap.init 1 1) ⟨0, 0⟩).2.1 = true ∧
      ((insert zeroH (HashMap.init 1 1) ⟨0, 0⟩).2.2.all (fun op => op.waited)) = false ∧
      (insert zeroH (HashMap.init 1 1) ⟨0, 0⟩).2.2 =
        [⟨OpKind.fetchAdd, 0, 0, true⟩, ⟨OpKind.rput, 0, 0, false⟩] := by decide

/-- C4 witness: the wait discipline at the concrete capacity-1 insert. -/
theorem remote_wait_discipline_witness :
    (insert zeroH (HashMap.init 1 1) ⟨0, 0⟩).2.1 = true ∧
      ∃ ops1 wop, (insert zeroH (HashMap.init 1 1) ⟨0, 0⟩).2.2 = ops1 ++ [wop] ∧
        wop.kind = OpKind.rput ∧ wop.waited = false :=
  ⟨by decide,
    (remote_wait_discipline zeroH (HashMap.init 1 1) ⟨0, 0⟩ 0).2.2 (by decide)⟩

/-- C8: on a table of non-zero capacity, find reports "not found" (an
ordinary result, not an error) exactly when its full probe sequence of
capacity slots is exhausted with no probed slot holding a record whose stored
key equals the searched key; in particular find on a freshly constructed
table with zero inserts returns "not found" for any key. -/
theorem find_not_found_iff (H : Nat → Nat) (st : HashMap) (key cap ranks key2 : Nat)
    (hC : 1 ≤ st.my_size) (hC2 : 1 ≤ cap) :
    ((find H st key).map Prod.fst = some none ↔
      ∀ p < st.my_size,
        kmerMatches (dataAt st (slotOf (H key % u64) p st.my_size)) key = false) ∧
      (∃ ops, find H (HashMap.init cap ranks) key2 = some (none, ops)) := by
  constructor
  · unfold find
    rw [if_neg (by omega)]
    have hiff := findAux_none_iff st key (H key % u64) 0 st.my_size
    simp only [Nat.zero_add] at hiff
    simp only [Option.map_some', Option.some.injEq]
    exact hiff
  · have h0 : ¬ (HashMap.init cap ranks).my_size = 0 := by
      show ¬ cap = 0
      omega
    have hnone : (findAux (HashMap.init cap ranks) key2 (H key2 % u64) 0
        (HashMap.init cap ranks).my_size).1 = none := by
      apply (findAux_none_iff (HashMap.init cap ranks) key2 (H key2 % u64) 0
        (HashMap.init cap ranks).my_size).mpr
      intro i _
      rfl
    refine ⟨(findAux (HashMap.init cap ranks) key2 (H key2 % u64) 0
      (HashMap.init cap ranks).my_size).2, ?_⟩
    unfold find
    rw [if_neg h0, ← hnone]

/-- C8 witness: a fresh capacity-3 table and key 7, plus the empty-table part
at capacity 2 and key 9. -/
theorem find_not_found_iff_witness :
    (1 ≤ (HashMap.init 3 1).my_size ∧ 1 ≤ 2) ∧
      (((find idH (HashMap.init 3 1) 7).map Prod.fst = some none ↔
        ∀ p < (HashMap.init 3 1).my_size,
          kmerMatches (dataAt (HashMap.init 3 1)
            (slotOf (idH 7 % u64) p (HashMap.init 3 1).my_size)) 7 = false) ∧
        ∃ ops, find idH (HashMap.init 2 1) 9 = some (none, ops)) :=
  ⟨⟨by decide, by decide⟩,
    find_not_found_iff idH (HashMap.init 3 1) 7 2 1 9 (by decide) (by decide)⟩

/-- C1 witness: two records with distinct keys into a fresh capacity-4
single-rank table under the identity hash. -/
theorem insert_phase_then_find_witness :
    (([(⟨0, 10⟩ : kmer_pair), ⟨1, 11⟩]).Pairwise (fun a b => a.kmer ≠ b.kmer) ∧
      2 * ([(⟨0, 10⟩ : kmer_pair), ⟨1, 11⟩]).length ≤ 4 ∧ 4 ≤ u64) ∧
      ((∀ b ∈ (insertAll idH (HashMap.init 4 1) [⟨0, 10⟩, ⟨1, 11⟩]).2, b = true) ∧
        ∀ r ∈ [(⟨0, 10⟩ : kmer_pair), ⟨1, 11⟩], ∃ v ops,
          find idH (insertAll idH (HashMap.init 4 1) [⟨0, 10⟩, ⟨1, 11⟩]).1 r.kmer =
            some (some v, ops) ∧ v.kmer = r.kmer) :=
  ⟨⟨by decide, by decide, by decide⟩,
    insert_phase_then_find idH [⟨0, 10⟩, ⟨1, 11⟩] 4 1 (by decide) (by decide) (by decide)⟩
